import Mathlib

/-!
Verification of the jsHash repository (jsHash.h, ChaChaEncryptor.h): a
four-lane streaming hash with standard and ChaCha20-encrypted ("secure")
finalization.  Machine integers are modelled as `Nat` with explicit
`% 2^32` / `% 2^64` where the C code can wrap; byte sequences are
`List Nat`; multi-byte loads and stores are little-endian, matching the
platform the code targets.  The fatal byte-counter overflow in `insert`
(process termination in the source) is modelled by `Option`: `none` is
the aborted process.
-/

/-! ### Core 64-bit primitives (jsHash.h) -/

/-- Wrapped 64-bit rotate-left, translating `rotl` from jsHash.h:
`(x << r) | (x >> (64 - r))` on `uint64_t`. -/
def rotl64 (x : Nat) (r : Nat) : Nat :=
  ((x <<< r) % 2 ^ 64) ||| (x >>> (64 - r))

/-- Wrapped 32-bit rotate-left, translating `std::rotl` on `uint32_t`
as used by ChaChaEncryptor.h. -/
def rotl32 (x : Nat) (r : Nat) : Nat :=
  ((x <<< r) % 2 ^ 32) ||| (x >>> (32 - r))

/-- jsHash constant `MIX` (SplitMix64 multiplier). -/
def MIX : Nat := 0xbf58476d1ce4e5b9

/-- jsHash constant `PHI`. -/
def PHI : Nat := 0x9e3779b97f4a7c15

/-- jsHash constant `PHI2`. -/
def PHI2 : Nat := 0x6c62272e07bb0143

/-- Modelled from the spec: the 128-bit value container of the missing
header u128.h.  jsHash.h builds it with braced initialization whose two
components are commented "lower 64 bits" and "upper 64 bits" and reads
the fields as `.lo` and `.hi`, so it is a pair of 64-bit words, low
half first. -/
structure u128 where
  lo : Nat
  hi : Nat
deriving DecidableEq, Repr

/-- Translation of `jsHash::mul64_portable`: 128-bit product of two
64-bit integers via four 32-bit partial products.  `LO`/`HI` are the
helper lambdas of the source; the `uint64_t` shifts that can wrap are
reduced `% 2^64`. -/
def mul64_portable (a b : Nat) : u128 :=
  let LO := fun (x : Nat) => x &&& 0xFFFFFFFF
  let HI := fun (x : Nat) => x >>> 32
  let p00 := LO a * LO b
  let p01 := LO a * HI b
  let p10 := HI a * LO b
  let p11 := HI a * HI b
  let x := HI p00 + LO p01 + LO p10
  let y := HI p01 + HI p10 + LO p11 + HI x
  { lo := LO p00 ||| ((x <<< 32) % 2 ^ 64),
    hi := (y + ((HI p11 <<< 32) % 2 ^ 64)) % 2 ^ 64 }

/-- Translation of `jsHash::mix` in its wide-multiply form
(`__uint128_t` / `_umul128` backends): the full product
`a * (b ^ MIX)`, folded as `a ^ b ^ low64 ^ high64`. -/
def mix (a b : Nat) : Nat :=
  let p := a * (b ^^^ MIX)
  a ^^^ b ^^^ (p % 2 ^ 64) ^^^ (p / 2 ^ 64)

/-- Translation of `jsHash::mix` in its portable-fallback form, which
routes the product through `mul64_portable`. -/
def mix_portable (a b : Nat) : Nat :=
  let p := mul64_portable a (b ^^^ MIX)
  a ^^^ b ^^^ p.lo ^^^ p.hi

/-! ### Streaming hash state (class jsHash) -/

/-- State of a `jsHash` object: the four 64-bit lanes `v[0..3]`, the
total byte counter `nbytes`, and the buffered tail.  The C buffer is a
32-byte array with a fill index `buffer_index`; only the first
`buffer_index` bytes are ever live (bytes past the index are always
overwritten before being read), so it is modelled as the list of live
bytes. -/
structure JsHash where
  v0 : Nat
  v1 : Nat
  v2 : Nat
  v3 : Nat
  nbytes : Nat
  buffer : List Nat
deriving DecidableEq, Repr

/-- One step of the nested `SplitMix64` generator: the state advances
by the golden-ratio constant (wrapping), the output is the finalizer of
the new state. -/
def splitmix_out (s : Nat) : Nat :=
  let z := s
  let z := (z ^^^ (z >>> 30)) * 0xbf58476d1ce4e5b9 % 2 ^ 64
  let z := (z ^^^ (z >>> 27)) * 0x94d049bb133111eb % 2 ^ 64
  z ^^^ (z >>> 31)

/-- Translation of the `jsHash` constructor: expand the seed with four
SplitMix64 draws into the lane initials; counter and buffer empty. -/
def jsHashInit (key : Nat) : JsHash :=
  let s1 := (key + 0x9e3779b97f4a7c15) % 2 ^ 64
  let s2 := (s1 + 0x9e3779b97f4a7c15) % 2 ^ 64
  let s3 := (s2 + 0x9e3779b97f4a7c15) % 2 ^ 64
  let s4 := (s3 + 0x9e3779b97f4a7c15) % 2 ^ 64
  { v0 := splitmix_out s1, v1 := splitmix_out s2, v2 := splitmix_out s3,
    v3 := splitmix_out s4, nbytes := 0, buffer := [] }

/-- Little-endian value of a byte list (the `uint64_t` read that
`process_32bytes` performs on each 8-byte group). -/
def leBytesToNat : List Nat → Nat
  | [] => 0
  | b :: bs => b + 2 ^ 8 * leBytesToNat bs

/-- The 64-bit word at 8-byte group `k` of a block. -/
def le64 (p : List Nat) (k : Nat) : Nat :=
  leBytesToNat ((p.drop (8 * k)).take 8)

/-- Translation of `jsHash::process_32bytes`: fold the four 64-bit
words of a 32-byte block into their lanes with `mix`. -/
def process_32bytes (h : JsHash) (p : List Nat) : JsHash :=
  { h with
    v0 := mix h.v0 (le64 p 0)
    v1 := mix h.v1 (le64 p 1)
    v2 := mix h.v2 (le64 p 2)
    v3 := mix h.v3 (le64 p 3) }

/-- The bulk/tail phase of `jsHash::insert`, entered with an empty
buffer: absorb 32-byte blocks directly from the input, then store any
remaining bytes as the new buffer contents. -/
def absorbLoop (h : JsHash) (data : List Nat) : JsHash :=
  if h32 : 32 ≤ data.length then
    absorbLoop (process_32bytes h (data.take 32)) (data.drop 32)
  else if 0 < data.length then { h with buffer := data }
  else h
termination_by data.length
decreasing_by simp only [List.length_drop]; omega

/-- Translation of `jsHash::insert`.  A zero-length call returns at
once.  Otherwise the tail buffer is topped up first (and absorbed if it
reaches 32 bytes), then whole blocks are absorbed from the input, then
the remainder becomes the buffer, and finally the byte counter is
bumped with the wrap-around check; the source terminates the process on
wrap, modelled as `none`. -/
def JsHash.insert (h : JsHash) (data : List Nat) : Option JsHash :=
  if data.length = 0 then some h
  else
    let step :=
      if 0 < h.buffer.length then
        let needed := 32 - h.buffer.length
        let tk := min needed data.length
        let buf := h.buffer ++ data.take tk
        if buf.length = 32 then
          (process_32bytes { h with buffer := [] } buf, data.drop tk)
        else ({ h with buffer := buf }, data.drop tk)
      else (h, data)
    let h2 := absorbLoop step.1 step.2
    let nb := (h.nbytes + data.length) % 2 ^ 64
    if nb < data.length then none
    else some { h2 with nbytes := nb }

/-- A sequence of `insert` calls, aborting (like the process) when one
call hits the counter-overflow exit. -/
def insertAll (h : JsHash) : List (List Nat) → Option JsHash
  | [] => some h
  | c :: cs => (h.insert c).bind fun h' => insertAll h' cs

/-- Reference absorption: starting from lanes `h` and a byte stream,
absorb every complete leading 32-byte block and return the final lanes
together with the leftover (< 32 bytes).  Used to characterize
`insert`. -/
def absorbAll (h : JsHash) (data : List Nat) : JsHash × List Nat :=
  if h32 : 32 ≤ data.length then
    absorbAll (process_32bytes h (data.take 32)) (data.drop 32)
  else (h, data)
termination_by data.length
decreasing_by simp only [List.length_drop]; omega

/-- Closed form of a successful `insert`: the lanes are those obtained
by block-absorbing `buffer ++ data`, the leftover is the new buffer,
and the counter grows by exactly the input length. -/
def insertSpec (h : JsHash) (data : List Nat) : JsHash :=
  { (absorbAll h (h.buffer ++ data)).1 with
    nbytes := h.nbytes + data.length
    buffer := (absorbAll h (h.buffer ++ data)).2 }

/-- The state invariant every reachable `jsHash` object satisfies
between calls: the tail buffer is never full and the byte counter fits
in 64 bits. -/
def Wf (h : JsHash) : Prop := h.buffer.length < 32 ∧ h.nbytes < 2 ^ 64

instance : DecidablePred Wf := fun h => by unfold Wf; infer_instance

/-- The tail padding step shared by every finalization: if the buffer
is non-empty, zero-pad it to 32 bytes and absorb it as one final block
(`memset` + `process_buffer` on the method-local copy). -/
def padFinal (h : JsHash) : JsHash :=
  if 0 < h.buffer.length then
    { process_32bytes h (h.buffer ++ List.replicate (32 - h.buffer.length) 0) with
      buffer := [] }
  else h

/-- Translation of `jsHash::hash256`: pad/absorb the tail on a copy,
inject the length (note: `a` is mixed with the full 64-bit `nbytes`,
`b` with its high 32 bits), season `c`/`d`, then cross-mix the four
lanes with the fixed rotation constants. -/
def hash256 (h : JsHash) : List Nat :=
  let t := padFinal h
  let a := t.v0
  let b := t.v1
  let c := t.v2
  let d := t.v3
  let a := mix a t.nbytes
  let b := mix b (t.nbytes >>> 32)
  let c := mix c PHI
  let d := mix d PHI2
  let t1 := mix a b
  let a := a ^^^ t1
  let b := b ^^^ rotl64 t1 11
  let t2 := mix c d
  let c := c ^^^ t2
  let d := d ^^^ rotl64 t2 23
  let t3 := mix a d
  let a := a ^^^ t3
  let d := d ^^^ rotl64 t3 31
  let t4 := mix b c
  let b := b ^^^ t4
  let c := c ^^^ rotl64 t4 43
  [a, b, c, d]

/-- Translation of `jsHash::hash128`: XOR-fold the 256-bit digest. -/
def hash128 (h : JsHash) : List Nat :=
  let r := hash256 h
  [r.getD 0 0 ^^^ r.getD 1 0, r.getD 2 0 ^^^ r.getD 3 0]

/-- Translation of `jsHash::hash64`: XOR-fold the 256-bit digest. -/
def JsHash.hash64 (h : JsHash) : Nat :=
  let r := hash256 h
  r.getD 0 0 ^^^ r.getD 1 0 ^^^ r.getD 2 0 ^^^ r.getD 3 0

/-- The spec's description of the standard finalization, with the
length injected as `a = mix(a, low32(byte_count))`,
`b = mix(b, high32(byte_count))` — the only point at which it differs
from `hash256`. -/
def hash256_spec_low32 (h : JsHash) : List Nat :=
  let t := padFinal h
  let a := t.v0
  let b := t.v1
  let c := t.v2
  let d := t.v3
  let a := mix a (t.nbytes % 2 ^ 32)
  let b := mix b (t.nbytes >>> 32)
  let c := mix c PHI
  let d := mix d PHI2
  let t1 := mix a b
  let a := a ^^^ t1
  let b := b ^^^ rotl64 t1 11
  let t2 := mix c d
  let c := c ^^^ t2
  let d := d ^^^ rotl64 t2 23
  let t3 := mix a d
  let a := a ^^^ t3
  let d := d ^^^ rotl64 t3 31
  let t4 := mix b c
  let b := b ^^^ t4
  let c := c ^^^ rotl64 t4 43
  [a, b, c, d]

/-! ### Stream cipher (ChaChaEncryptor.h, namespace ChaCha) -/

/-- `ChaCha::ChaChaKey`: eight 32-bit words (256 bits). -/
structure ChaChaKey where
  k0 : Nat
  k1 : Nat
  k2 : Nat
  k3 : Nat
  k4 : Nat
  k5 : Nat
  k6 : Nat
  k7 : Nat
deriving DecidableEq, Repr

/-- `ChaCha::ChaChaNonce`: three 32-bit words (96 bits). -/
structure ChaChaNonce where
  n0 : Nat
  n1 : Nat
  n2 : Nat
deriving DecidableEq, Repr

/-- The 16-word ChaCha state array (`uint32_t state[16]`). -/
structure ChaChaMat where
  s0 : Nat
  s1 : Nat
  s2 : Nat
  s3 : Nat
  s4 : Nat
  s5 : Nat
  s6 : Nat
  s7 : Nat
  s8 : Nat
  s9 : Nat
  s10 : Nat
  s11 : Nat
  s12 : Nat
  s13 : Nat
  s14 : Nat
  s15 : Nat
deriving DecidableEq, Repr

/-- Translation of `ChaCha20::QR`: the quarter-round on four 32-bit
words, additions wrapping mod `2^32`. -/
def QR (a b c d : Nat) : Nat × Nat × Nat × Nat :=
  let a := (a + b) % 2 ^ 32
  let d := rotl32 (d ^^^ a) 16
  let c := (c + d) % 2 ^ 32
  let b := rotl32 (b ^^^ c) 12
  let a := (a + b) % 2 ^ 32
  let d := rotl32 (d ^^^ a) 8
  let c := (c + d) % 2 ^ 32
  let b := rotl32 (b ^^^ c) 7
  (a, b, c, d)

/-- The four column quarter-rounds of one round iteration of
`refill_keystream`, on indices (0,4,8,12), (1,5,9,13), (2,6,10,14),
(3,7,11,15). -/
def colRound (m : ChaChaMat) : ChaChaMat :=
  let q0 := QR m.s0 m.s4 m.s8 m.s12
  let q1 := QR m.s1 m.s5 m.s9 m.s13
  let q2 := QR m.s2 m.s6 m.s10 m.s14
  let q3 := QR m.s3 m.s7 m.s11 m.s15
  { s0 := q0.1, s4 := q0.2.1, s8 := q0.2.2.1, s12 := q0.2.2.2,
    s1 := q1.1, s5 := q1.2.1, s9 := q1.2.2.1, s13 := q1.2.2.2,
    s2 := q2.1, s6 := q2.2.1, s10 := q2.2.2.1, s14 := q2.2.2.2,
    s3 := q3.1, s7 := q3.2.1, s11 := q3.2.2.1, s15 := q3.2.2.2 }

/-- The four diagonal quarter-rounds of one round iteration of
`refill_keystream`, on indices (0,5,10,15), (1,6,11,12), (2,7,8,13),
(3,4,9,14). -/
def diagRound (m : ChaChaMat) : ChaChaMat :=
  let q0 := QR m.s0 m.s5 m.s10 m.s15
  let q1 := QR m.s1 m.s6 m.s11 m.s12
  let q2 := QR m.s2 m.s7 m.s8 m.s13
  let q3 := QR m.s3 m.s4 m.s9 m.s14
  { s0 := q0.1, s5 := q0.2.1, s10 := q0.2.2.1, s15 := q0.2.2.2,
    s1 := q1.1, s6 := q1.2.1, s11 := q1.2.2.1, s12 := q1.2.2.2,
    s2 := q2.1, s7 := q2.2.1, s8 := q2.2.2.1, s13 := q2.2.2.2,
    s3 := q3.1, s4 := q3.2.1, s9 := q3.2.2.1, s14 := q3.2.2.2 }

/-- The `for (r = 0; r < n; ++r)` loop of `refill_keystream`: each
iteration runs the column then the diagonal quarter-rounds. -/
def chachaRounds : Nat → ChaChaMat → ChaChaMat
  | 0, m => m
  | n + 1, m => chachaRounds n (diagRound (colRound m))

/-- Word-wise wrapping addition of two ChaCha states
(`keystream[i] = input[i] + state[i]`). -/
def addMat (x y : ChaChaMat) : ChaChaMat :=
  { s0 := (x.s0 + y.s0) % 2 ^ 32, s1 := (x.s1 + y.s1) % 2 ^ 32,
    s2 := (x.s2 + y.s2) % 2 ^ 32, s3 := (x.s3 + y.s3) % 2 ^ 32,
    s4 := (x.s4 + y.s4) % 2 ^ 32, s5 := (x.s5 + y.s5) % 2 ^ 32,
    s6 := (x.s6 + y.s6) % 2 ^ 32, s7 := (x.s7 + y.s7) % 2 ^ 32,
    s8 := (x.s8 + y.s8) % 2 ^ 32, s9 := (x.s9 + y.s9) % 2 ^ 32,
    s10 := (x.s10 + y.s10) % 2 ^ 32, s11 := (x.s11 + y.s11) % 2 ^ 32,
    s12 := (x.s12 + y.s12) % 2 ^ 32, s13 := (x.s13 + y.s13) % 2 ^ 32,
    s14 := (x.s14 + y.s14) % 2 ^ 32, s15 := (x.s15 + y.s15) % 2 ^ 32 }

/-- The state words in index order. -/
def matToList (m : ChaChaMat) : List Nat :=
  [m.s0, m.s1, m.s2, m.s3, m.s4, m.s5, m.s6, m.s7,
   m.s8, m.s9, m.s10, m.s11, m.s12, m.s13, m.s14, m.s15]

/-- Little-endian bytes of one 32-bit word. -/
def word32ToLEBytes (w : Nat) : List Nat :=
  [w % 2 ^ 8, w / 2 ^ 8 % 2 ^ 8, w / 2 ^ 16 % 2 ^ 8, w / 2 ^ 24 % 2 ^ 8]

/-- The 64-byte little-endian byte view of a 16-word state, as
`reinterpret_cast<const uint8_t*>(keystream)` reads it. -/
def matToBytes (m : ChaChaMat) : List Nat :=
  ((matToList m).map word32ToLEBytes).flatten

/-- State of a `ChaCha::ChaCha20` object: the persistent 16-word
state, the current keystream block (as its 64-byte view), the read
cursor `keystream_pos`, and the 64-bit `block_counter`. -/
structure ChaCha20 where
  mat : ChaChaMat
  ks : List Nat
  pos : Nat
  ctr : Nat
deriving DecidableEq, Repr

/-- Translation of the `ChaCha20` constructor: the four sigma
constants, the eight key words, the 64-bit counter split into words 12
(low) and 13 (high), and nonce words 0 and 1 in words 14 and 15 —
`nonce[2]` is not stored anywhere.  The keystream array is
zero-initialized and the cursor starts at 64, forcing generation on
first use. -/
def chachaNew (key : ChaChaKey) (nonce : ChaChaNonce) (initial_counter : Nat := 1) :
    ChaCha20 :=
  { mat :=
      { s0 := 0x61707865, s1 := 0x3320646e, s2 := 0x79622d32, s3 := 0x6b206574,
        s4 := key.k0, s5 := key.k1, s6 := key.k2, s7 := key.k3,
        s8 := key.k4, s9 := key.k5, s10 := key.k6, s11 := key.k7,
        s12 := initial_counter % 2 ^ 32,
        s13 := initial_counter >>> 32 % 2 ^ 32,
        s14 := nonce.n0, s15 := nonce.n1 }
    ks := List.replicate 64 0
    pos := 64
    ctr := initial_counter }

/-- Translation of `ChaCha20::refill_keystream`: run 10 column/diagonal
round pairs on a copy of the state, add the pre-round state word-wise,
store the result as the new keystream block; then increment the 64-bit
counter, write it back into state words 12/13, and reset the cursor. -/
def refill_keystream (c : ChaCha20) : ChaCha20 :=
  let input := chachaRounds 10 c.mat
  let ksNew := addMat input c.mat
  let ctrNew := (c.ctr + 1) % 2 ^ 64
  { mat := { c.mat with s12 := ctrNew % 2 ^ 32, s13 := ctrNew >>> 32 % 2 ^ 32 }
    ks := matToBytes ksNew
    pos := 0
    ctr := ctrNew }

/-- Translation of `ChaCha20::xor_stream`: repeatedly refill the
keystream when the cursor is exhausted, XOR a chunk of up to
`64 - keystream_pos` bytes, and advance the cursor. -/
def xor_stream (c : ChaCha20) (input : List Nat) : List Nat × ChaCha20 :=
  if hpos : 0 < input.length then
    let c1 := if 64 ≤ c.pos then refill_keystream c else c
    let tk := min input.length (64 - c1.pos)
    let chunk := List.zipWith (fun i k => i ^^^ k)
      (input.take tk) ((c1.ks.drop c1.pos).take tk)
    let r := xor_stream { c1 with pos := c1.pos + tk } (input.drop tk)
    (chunk ++ r.1, r.2)
  else ([], c)
termination_by input.length
decreasing_by
  simp only [List.length_drop]
  split
  · rw [show (refill_keystream c).pos = 0 from rfl]
    omega
  · omega

/-- Byte-at-a-time form of the `xor_stream` loop: refill when the
cursor is exhausted, XOR one byte at the cursor, advance by one.  The
source's chunked loop performs exactly these per-byte steps (proved
equivalent below); this structurally recursive form is the one the
kernel can evaluate on concrete inputs. -/
def xorBytes : ChaCha20 → List Nat → List Nat × ChaCha20
  | c, [] => ([], c)
  | c, b :: bs =>
      let c1 := if 64 ≤ c.pos then refill_keystream c else c
      let r := xorBytes { c1 with pos := c1.pos + 1 } bs
      ((b ^^^ c1.ks.getD c1.pos 0) :: r.1, r.2)

/-- Translation of `ChaCha20::crypt` (in-place encrypt/decrypt):
`xor_stream` over the data, returning the transformed bytes and the
advanced cipher state. -/
def crypt (c : ChaCha20) (data : List Nat) : List Nat × ChaCha20 :=
  xor_stream c data

/-- Little-endian bytes of one 64-bit word. -/
def word64ToLEBytes (w : Nat) : List Nat :=
  [w % 2 ^ 8, w / 2 ^ 8 % 2 ^ 8, w / 2 ^ 16 % 2 ^ 8, w / 2 ^ 24 % 2 ^ 8,
   w / 2 ^ 32 % 2 ^ 8, w / 2 ^ 40 % 2 ^ 8, w / 2 ^ 48 % 2 ^ 8, w / 2 ^ 56 % 2 ^ 8]

/-- The byte view of an array of 64-bit words
(`reinterpret_cast<uint8_t*>(result.data())`). -/
def words64ToBytes (ws : List Nat) : List Nat :=
  (ws.map word64ToLEBytes).flatten

/-- Group a byte list back into little-endian 64-bit words (the
`uint64_t` array the byte view overlays). -/
def bytesToWords64 : List Nat → List Nat
  | [] => []
  | b0 :: b1 :: b2 :: b3 :: b4 :: b5 :: b6 :: b7 :: rest =>
      leBytesToNat [b0, b1, b2, b3, b4, b5, b6, b7] :: bytesToWords64 rest
  | bs => [leBytesToNat bs]

/-- Translation of `ChaCha20::encrypt_block`: copy the eight-word
block, `crypt` its 64-byte view in place, and return it (with the
cipher state the call leaves behind). -/
def encrypt_block (c : ChaCha20) (block : List Nat) : List Nat × ChaCha20 :=
  let r := crypt c (words64ToBytes block)
  (bytesToWords64 r.1, r.2)

/-! ### Secure finalization and the one-shot helpers -/

/-- Translation of `jsHash::hash_secure<N>`: pad/absorb the tail on a
copy, build the 8-word block from the four raw lanes, the byte counter
(word 4 is the full 64-bit `nbytes`, word 5 its high 32 bits), and the
two salt constants; encrypt the block with a fresh ChaCha20 instance
(counter 1) and keep the first `N` words. -/
def hash_secure (N : Nat) (h : JsHash) (key : ChaChaKey) (nonce : ChaChaNonce) :
    List Nat :=
  let t := padFinal h
  let block := [t.v0, t.v1, t.v2, t.v3, t.nbytes, t.nbytes >>> 32,
                0x517cc1b727220a94, 0x853a83b0eba87773]
  let encryptor := chachaNew key nonce 1
  let ciphertext := (encrypt_block encryptor block).1
  ciphertext.take N

/-- The spec's description of the secure-finalization block, whose
word 4 is the low 32 bits of the byte counter zero-extended to 64 bits
— the only point at which it differs from `hash_secure`. -/
def hash_secure_spec_low32 (N : Nat) (h : JsHash) (key : ChaChaKey)
    (nonce : ChaChaNonce) : List Nat :=
  let t := padFinal h
  let block := [t.v0, t.v1, t.v2, t.v3, t.nbytes % 2 ^ 32, t.nbytes >>> 32,
                0x517cc1b727220a94, 0x853a83b0eba87773]
  let encryptor := chachaNew key nonce 1
  let ciphertext := (encrypt_block encryptor block).1
  ciphertext.take N

/-- Translation of the non-member one-shot `Hash64`: seed a fresh
hash, insert the data once, finalize with `hash64`. -/
def Hash64 (data : List Nat) (seed : Nat := 42) : Option Nat :=
  let h := jsHashInit seed
  (h.insert data).map JsHash.hash64

/-- Translation of the non-member one-shot `SecureHash<N>`: seed a
fresh hash, insert the data once, finalize with `hash_secure<N>`. -/
def SecureHash (N : Nat) (data : List Nat) (key : ChaChaKey) (seed : Nat := 42)
    (nonce : ChaChaNonce := ⟨0, 0, 0⟩) : Option (List Nat) :=
  let h := jsHashInit seed
  (h.insert data).map fun h' => hash_secure N h' key nonce

/-! ### Method wrappers recording the caller-visible state

The finalization members of `jsHash` are `const`: each works on a
method-local copy (`jsHash temp(*this)` / `jsHash h(*this)`) and never
writes through `this`.  These wrappers return, next to the digest, the
state the caller's object holds after the call, exactly as the method
bodies leave it. -/

/-- `hash256()` as a call on an object: result plus post-call object
state. -/
def hash256_call (h : JsHash) : List Nat × JsHash := (hash256 h, h)

/-- `hash128()` as a call on an object. -/
def hash128_call (h : JsHash) : List Nat × JsHash := (hash128 h, h)

/-- `hash64()` as a call on an object. -/
def hash64_call (h : JsHash) : Nat × JsHash := (JsHash.hash64 h, h)

/-- `hash_secure<N>(key, nonce)` as a call on an object. -/
def hash_secure_call (N : Nat) (h : JsHash) (key : ChaChaKey)
    (nonce : ChaChaNonce) : List Nat × JsHash := (hash_secure N h key nonce, h)

/-! ### Spec-side definitions for the cipher claims -/

/-- The quarter-round as the spec words it: the
add/xor/rotate-left-by-16, 12, 8, 7 sequence, additions mod `2^32`. -/
def quarterRoundSpec (a b c d : Nat) : Nat × Nat × Nat × Nat :=
  let a1 := (a + b) % 2 ^ 32
  let d1 := rotl32 (d ^^^ a1) 16
  let c1 := (c + d1) % 2 ^ 32
  let b1 := rotl32 (b ^^^ c1) 12
  let a2 := (a1 + b1) % 2 ^ 32
  let d2 := rotl32 (d1 ^^^ a2) 8
  let c2 := (c1 + d2) % 2 ^ 32
  let b2 := rotl32 (b1 ^^^ c2) 7
  (a2, b2, c2, d2)

/-- Apply the spec quarter-round at four positions of a 16-word list. -/
def qrAt (i j k l : Nat) (ws : List Nat) : List Nat :=
  let q := quarterRoundSpec (ws.getD i 0) (ws.getD j 0) (ws.getD k 0) (ws.getD l 0)
  ((((ws.set i q.1).set j q.2.1).set k q.2.2.1).set l q.2.2.2)

/-- One double round as the spec describes it: four independent column
quarter-rounds over (0,4,8,12), (1,5,9,13), (2,6,10,14), (3,7,11,15),
followed by four independent diagonal quarter-rounds over (0,5,10,15),
(1,6,11,12), (2,7,8,13), (3,4,9,14). -/
def doubleRoundSpec (ws : List Nat) : List Nat :=
  [(0, 4, 8, 12), (1, 5, 9, 13), (2, 6, 10, 14), (3, 7, 11, 15),
   (0, 5, 10, 15), (1, 6, 11, 12), (2, 7, 8, 13), (3, 4, 9, 14)].foldl
    (fun l q => qrAt q.1 q.2.1 q.2.2.1 q.2.2.2 l) ws

/-- One keystream-block generation as the spec describes it: 20
rounds (10 double-round iterations) on a scratch copy of the state,
word-wise addition of the pre-round state mod `2^32`, counter bumped by
one and written to words 12 (low half) and 13 (high half), cursor reset
to 0. -/
def generate_block_spec (c : ChaCha20) : ChaCha20 :=
  let pre := matToList c.mat
  let mixed := doubleRoundSpec^[10] pre
  let ksWords := List.zipWith (fun x y => (x + y) % 2 ^ 32) mixed pre
  let ctrNew := (c.ctr + 1) % 2 ^ 64
  { mat := { c.mat with s12 := ctrNew % 2 ^ 32, s13 := ctrNew >>> 32 % 2 ^ 32 }
    ks := (ksWords.map word32ToLEBytes).flatten
    pos := 0
    ctr := ctrNew }

/-- The 64-byte keystream block that a generation started from the
current cipher state would produce — "one freshly generated 64-byte
keystream block" in the spec's words. -/
def fresh_block_bytes (c : ChaCha20) : List Nat :=
  matToBytes (addMat (chachaRounds 10 c.mat) c.mat)

/-! ### Theorems -/

/-- A value below `2^n` or-ed with a multiple of `2^n` is their sum:
the two summands occupy disjoint bit ranges. -/
theorem lor_low_mul_pow (n u v : Nat) (hu : u < 2 ^ n) :
    u ||| v * 2 ^ n = u + v * 2 ^ n := by
  apply Nat.eq_of_testBit_eq
  intro j
  have hsum : u + v * 2 ^ n = 2 ^ n * v + u := by ring
  rw [Nat.testBit_lor, hsum, Nat.testBit_mul_pow_two_add v hu j]
  by_cases hj : j < n
  · have hv : Nat.testBit (v * 2 ^ n) j = false := by
      rw [mul_comm, Nat.testBit_mul_pow_two]
      simp [Nat.not_le.mpr hj]
    simp [hv, hj]
  · have hu' : Nat.testBit u j = false :=
      Nat.testBit_lt_two_pow (lt_of_lt_of_le hu (Nat.pow_le_pow_right (by norm_num) (Nat.le_of_not_lt hj)))
    rw [if_neg hj]
    rw [mul_comm, Nat.testBit_mul_pow_two]
    simp [hu', Nat.le_of_not_lt hj]

/-- The four-partial-product emulation computes the exact low and high
64-bit halves of the 128-bit product. -/
theorem mul64_portable_correct (a b : Nat) (ha : a < 2 ^ 64) (hb : b < 2 ^ 64) :
    mul64_portable a b = ⟨a * b % 2 ^ 64, a * b / 2 ^ 64⟩ := by
  have hmask : (0xFFFFFFFF : Nat) = 2 ^ 32 - 1 := by norm_num
  unfold mul64_portable
  simp only [hmask, Nat.and_pow_two_sub_one_eq_mod, Nat.shiftRight_eq_div_pow,
    Nat.shiftLeft_eq]
  have key : a * b =
      (a / 2 ^ 32 * (b / 2 ^ 32) * 2 ^ 32 + a / 2 ^ 32 * (b % 2 ^ 32)
        + a % 2 ^ 32 * (b / 2 ^ 32)) * 2 ^ 32 + a % 2 ^ 32 * (b % 2 ^ 32) := by
    conv_lhs => rw [← Nat.div_add_mod a (2 ^ 32), ← Nat.div_add_mod b (2 ^ 32)]
    ring
  have hal : a % 2 ^ 32 < 2 ^ 32 := Nat.mod_lt _ (by norm_num)
  have hbl : b % 2 ^ 32 < 2 ^ 32 := Nat.mod_lt _ (by norm_num)
  have hah : a / 2 ^ 32 < 2 ^ 32 := by omega
  have hbh : b / 2 ^ 32 < 2 ^ 32 := by omega
  have hq00 : a % 2 ^ 32 * (b % 2 ^ 32) ≤ (2 ^ 32 - 1) * (2 ^ 32 - 1) :=
    Nat.mul_le_mul (by omega) (by omega)
  have hq01 : a % 2 ^ 32 * (b / 2 ^ 32) ≤ (2 ^ 32 - 1) * (2 ^ 32 - 1) :=
    Nat.mul_le_mul (by omega) (by omega)
  have hq10 : a / 2 ^ 32 * (b % 2 ^ 32) ≤ (2 ^ 32 - 1) * (2 ^ 32 - 1) :=
    Nat.mul_le_mul (by omega) (by omega)
  have hq11 : a / 2 ^ 32 * (b / 2 ^ 32) ≤ (2 ^ 32 - 1) * (2 ^ 32 - 1) :=
    Nat.mul_le_mul (by omega) (by omega)
  have hlorArg : a % 2 ^ 32 * (b % 2 ^ 32) % 2 ^ 32 < 2 ^ 32 := Nat.mod_lt _ (by norm_num)
  have hshift : ∀ x : Nat, x * 2 ^ 32 % 2 ^ 64 = x % 2 ^ 32 * 2 ^ 32 := by
    intro x
    have h64 : (2 : Nat) ^ 64 = 2 ^ 32 * 2 ^ 32 := by norm_num
    rw [h64, Nat.mul_mod_mul_right]
  rw [hshift, hshift, lor_low_mul_pow 32 _ _ hlorArg]
  refine congrArg₂ u128.mk ?_ ?_
  · generalize hP : a * b = P at *
    generalize a % 2 ^ 32 * (b % 2 ^ 32) = q00 at *
    generalize a % 2 ^ 32 * (b / 2 ^ 32) = q01 at *
    generalize a / 2 ^ 32 * (b % 2 ^ 32) = q10 at *
    generalize a / 2 ^ 32 * (b / 2 ^ 32) = q11 at *
    omega
  · generalize hP : a * b = P at *
    generalize a % 2 ^ 32 * (b % 2 ^ 32) = q00 at *
    generalize a % 2 ^ 32 * (b / 2 ^ 32) = q01 at *
    generalize a / 2 ^ 32 * (b % 2 ^ 32) = q10 at *
    generalize a / 2 ^ 32 * (b / 2 ^ 32) = q11 at *
    have h1 : q11 / 2 ^ 32 < 2 ^ 32 := by omega
    rw [Nat.mod_eq_of_lt h1]
    have h2 : q01 / 2 ^ 32 + q10 / 2 ^ 32 + q11 % 2 ^ 32
        + (q00 / 2 ^ 32 + q01 % 2 ^ 32 + q10 % 2 ^ 32) / 2 ^ 32
        + q11 / 2 ^ 32 * 2 ^ 32 < 2 ^ 64 := by omega
    rw [Nat.mod_eq_of_lt h2]
    omega

/-- The leftover of reference absorption is always shorter than a
block. -/
theorem absorbAll_snd_length (h : JsHash) (data : List Nat) :
    (absorbAll h data).2.length < 32 := by
  induction h, data using absorbAll.induct with
  | case1 h data h32 ih => rw [absorbAll]; simpa [h32] using ih
  | case2 h data h32 => rw [absorbAll]; simp [h32]; omega

/-- Reference absorption does not change the byte counter. -/
theorem absorbAll_fst_nbytes (h : JsHash) (data : List Nat) :
    (absorbAll h data).1.nbytes = h.nbytes := by
  induction h, data using absorbAll.induct with
  | case1 h data h32 ih => rw [absorbAll]; simpa [h32, process_32bytes] using ih
  | case2 h data h32 => rw [absorbAll]; simp [h32]

/-- Reference absorption does not change the buffer field it was
seeded with. -/
theorem absorbAll_fst_buffer (h : JsHash) (data : List Nat) :
    (absorbAll h data).1.buffer = h.buffer := by
  induction h, data using absorbAll.induct with
  | case1 h data h32 ih => rw [absorbAll]; simpa [h32, process_32bytes] using ih
  | case2 h data h32 => rw [absorbAll]; simp [h32]

/-- The buffer field of the seed state is inert during reference
absorption: it can be replaced before or after. -/
theorem absorbAll_set_buffer (b : List Nat) (h : JsHash) (data : List Nat) :
    absorbAll { h with buffer := b } data
      = ({ (absorbAll h data).1 with buffer := b }, (absorbAll h data).2) := by
  induction h, data using absorbAll.induct with
  | case1 h data h32 ih =>
      conv_lhs => rw [absorbAll]
      conv_rhs => rw [absorbAll]
      simp only [h32, dite_true, List.length_append]
      exact ih
  | case2 h data h32 =>
      have hE : absorbAll h data = (h, data) := by rw [absorbAll]; simp [h32]
      rw [absorbAll, hE]
      simp [h32]

/-- The block-absorbing loop of `insert`, started with an empty
buffer, computes reference absorption and leaves the leftover as the
new buffer. -/
theorem absorbLoop_eq (h : JsHash) (data : List Nat) (hb : h.buffer = []) :
    absorbLoop h data
      = { (absorbAll h data).1 with buffer := (absorbAll h data).2 } := by
  induction h, data using absorbLoop.induct with
  | case1 h data h32 ih =>
      rw [absorbLoop]
      conv_rhs => rw [absorbAll]
      simp only [h32, dite_true]
      exact ih (by simp [process_32bytes, hb])
  | case2 h data h32 hpos =>
      rw [absorbLoop]
      conv_rhs => rw [absorbAll]
      simp [h32, hpos]
  | case3 h data h32 hpos =>
      rw [absorbLoop]
      conv_rhs => rw [absorbAll]
      have hdata : data = [] := by
        cases data with
        | nil => rfl
        | cons x xs => simp at hpos
      subst hdata
      cases h
      simp_all [h32, hpos]

/-- Composing reference absorption over an append: absorb the first
part, then continue from its leftover. -/
theorem absorbAll_append (h : JsHash) (xs ys : List Nat) :
    absorbAll h (xs ++ ys)
      = absorbAll (absorbAll h xs).1 ((absorbAll h xs).2 ++ ys) := by
  induction h, xs using absorbAll.induct with
  | case1 h xs h32 ih =>
      have hE : absorbAll h xs
          = absorbAll (process_32bytes h (xs.take 32)) (xs.drop 32) := by
        conv_lhs => rw [absorbAll]
        simp [h32]
      rw [hE]
      conv_lhs => rw [absorbAll]
      have hl : 32 ≤ (xs ++ ys).length := by simp; omega
      have htk : (xs ++ ys).take 32 = xs.take 32 := by
        rw [List.take_append_eq_append_take]
        simp [Nat.sub_eq_zero_of_le h32]
      have hdr : (xs ++ ys).drop 32 = xs.drop 32 ++ ys := by
        rw [List.drop_append_eq_append_drop]
        simp [Nat.sub_eq_zero_of_le h32]
      simp only [hl, dite_true, htk, hdr]
      exact ih
  | case2 h xs h32 =>
      have hE : absorbAll h xs = (h, xs) := by rw [absorbAll]; simp [h32]
      rw [hE]

/-- Characterization of `insert` on a well-formed state: it fails
exactly when the byte counter would leave 64 bits, and otherwise
computes `insertSpec` — reference absorption of `buffer ++ data` with
the counter advanced by the input length. -/
theorem insert_char (h : JsHash) (data : List Nat) (wf : Wf h) :
    h.insert data =
      if h.nbytes + data.length < 2 ^ 64 then some (insertSpec h data) else none := by
  obtain ⟨wfb, wfn⟩ := wf
  by_cases h0 : data.length = 0
  · have hdata : data = [] := List.eq_nil_of_length_eq_zero h0
    subst hdata
    have hnil : JsHash.insert h [] = some h := by
      unfold JsHash.insert
      simp
    rw [hnil]
    rw [if_pos (show h.nbytes + ([] : List Nat).length < 2 ^ 64 by simp; omega)]
    have hE : absorbAll h (h.buffer ++ ([] : List Nat)) = (h, h.buffer ++ []) := by
      have hlen : ¬32 ≤ (h.buffer ++ ([] : List Nat)).length := by
        rw [List.append_nil]; omega
      rw [absorbAll, dif_neg hlen]
    unfold insertSpec
    rw [hE]
    cases h
    simp
  · have hL : 0 < data.length := Nat.pos_of_ne_zero h0
    simp only [JsHash.insert, if_neg h0]
    by_cases hov : h.nbytes + data.length < 2 ^ 64
    · rw [if_pos hov,
        if_neg (show ¬(h.nbytes + data.length) % 2 ^ 64 < data.length by omega),
        Nat.mod_eq_of_lt hov]
      apply congrArg some
      by_cases hbuf : 0 < h.buffer.length
      · rw [if_pos hbuf]
        by_cases hfill : 32 - h.buffer.length ≤ data.length
        · have htk : min (32 - h.buffer.length) data.length = 32 - h.buffer.length :=
            min_eq_left hfill
          rw [htk]
          rw [if_pos (show (h.buffer ++ data.take (32 - h.buffer.length)).length = 32 by
            simp [List.length_take]; omega)]
          have hPbuf : (process_32bytes { h with buffer := [] }
              (h.buffer ++ data.take (32 - h.buffer.length))).buffer = [] := rfl
          rw [absorbLoop_eq _ _ hPbuf]
          unfold insertSpec
          have hstep : absorbAll h (h.buffer ++ data)
              = absorbAll (process_32bytes h (h.buffer ++ data.take (32 - h.buffer.length)))
                  (data.drop (32 - h.buffer.length)) := by
            conv_lhs => rw [absorbAll]
            have hl : 32 ≤ (h.buffer ++ data).length := by simp; omega
            have htk2 : (h.buffer ++ data).take 32
                = h.buffer ++ data.take (32 - h.buffer.length) := by
              rw [List.take_append_eq_append_take, List.take_of_length_le (by omega)]
            have hdr2 : (h.buffer ++ data).drop 32 = data.drop (32 - h.buffer.length) := by
              rw [List.drop_append_eq_append_drop, List.drop_of_length_le (by omega)]
              simp
            simp only [hl, dite_true, htk2, hdr2]
          rw [hstep]
          rw [show process_32bytes { h with buffer := [] }
              (h.buffer ++ data.take (32 - h.buffer.length))
              = { process_32bytes h (h.buffer ++ data.take (32 - h.buffer.length)) with
                  buffer := [] } from rfl]
          rw [absorbAll_set_buffer]
        · have htk : min (32 - h.buffer.length) data.length = data.length :=
            min_eq_right (by omega)
          rw [htk, List.take_length]
          rw [if_neg (show ¬(h.buffer ++ data).length = 32 by simp; omega)]
          rw [List.drop_length]
          rw [show absorbLoop { h with buffer := h.buffer ++ data } [] =
              { h with buffer := h.buffer ++ data } by rw [absorbLoop]; simp]
          unfold insertSpec
          rw [absorbAll, dif_neg (by simp; omega)]
      · rw [if_neg hbuf]
        have hb : h.buffer = [] := List.length_eq_zero.mp (by omega)
        rw [absorbLoop_eq _ _ hb]
        unfold insertSpec
        rw [hb, List.nil_append]
    · rw [if_neg hov,
        if_pos (show (h.nbytes + data.length) % 2 ^ 64 < data.length by omega)]

/-- The byte-counter field of the seed state is likewise inert during
reference absorption. -/
theorem absorbAll_set_nbytes (n : Nat) (h : JsHash) (data : List Nat) :
    absorbAll { h with nbytes := n } data
      = ({ (absorbAll h data).1 with nbytes := n }, (absorbAll h data).2) := by
  induction h, data using absorbAll.induct with
  | case1 h data h32 ih =>
      conv_lhs => rw [absorbAll]
      conv_rhs => rw [absorbAll]
      simp only [h32, dite_true, List.length_append]
      exact ih
  | case2 h data h32 =>
      have hE : absorbAll h data = (h, data) := by rw [absorbAll]; simp [h32]
      rw [absorbAll, hE]
      simp [h32]

/-- A successful `insert` preserves the state invariant. -/
theorem insertSpec_wf (h : JsHash) (data : List Nat) (wf : Wf h)
    (hov : h.nbytes + data.length < 2 ^ 64) : Wf (insertSpec h data) := by
  unfold Wf insertSpec
  exact ⟨absorbAll_snd_length h _, hov⟩

/-- `insert` only ever returns well-formed states. -/
theorem insert_wf (h : JsHash) (data : List Nat) (wf : Wf h) (h' : JsHash)
    (hs : h.insert data = some h') : Wf h' := by
  rw [insert_char h data wf] at hs
  by_cases hov : h.nbytes + data.length < 2 ^ 64
  · rw [if_pos hov] at hs
    obtain rfl : insertSpec h data = h' := by
      simpa using hs
    exact insertSpec_wf h data wf hov
  · rw [if_neg hov] at hs
    exact absurd hs (by simp)

/-- Replacing both the byte counter and the buffer of the seed state
commutes with reference absorption. -/
theorem absorbAll_set_fields (n : Nat) (b : List Nat) (h : JsHash) (data : List Nat) :
    absorbAll { h with nbytes := n, buffer := b } data
      = ({ (absorbAll h data).1 with nbytes := n, buffer := b },
         (absorbAll h data).2) := by
  induction h, data using absorbAll.induct with
  | case1 h data h32 ih =>
      conv_lhs => rw [absorbAll]
      conv_rhs => rw [absorbAll]
      simp only [h32, dite_true, List.length_append]
      exact ih
  | case2 h data h32 =>
      have hE : absorbAll h data = (h, data) := by rw [absorbAll]; simp [h32]
      rw [absorbAll, hE]
      simp [h32]

/-- `insertSpec` composes over appended inputs. -/
theorem insertSpec_append (h : JsHash) (xs ys : List Nat) :
    insertSpec h (xs ++ ys) = insertSpec (insertSpec h xs) ys := by
  unfold insertSpec
  simp only [absorbAll_set_fields]
  rw [show h.buffer ++ (xs ++ ys) = (h.buffer ++ xs) ++ ys from
    (List.append_assoc _ _ _).symm]
  rw [absorbAll_append]
  simp [List.length_append]
  omega

/-- Splitting one `insert` call into two consecutive calls gives the
same result, including agreement on the fatal-overflow outcome. -/
theorem insert_append (h : JsHash) (xs ys : List Nat) (wf : Wf h) :
    h.insert (xs ++ ys) = (h.insert xs).bind fun h2 => h2.insert ys := by
  rw [insert_char h (xs ++ ys) wf, insert_char h xs wf]
  by_cases hov1 : h.nbytes + xs.length < 2 ^ 64
  · rw [if_pos hov1, Option.some_bind]
    rw [insert_char _ ys (insertSpec_wf h xs wf hov1)]
    have hnb : (insertSpec h xs).nbytes = h.nbytes + xs.length := rfl
    rw [hnb]
    by_cases hov2 : h.nbytes + xs.length + ys.length < 2 ^ 64
    · rw [if_pos hov2,
        if_pos (show h.nbytes + (xs ++ ys).length < 2 ^ 64 by
          rw [List.length_append]; omega)]
      rw [insertSpec_append]
    · rw [if_neg hov2,
        if_neg (show ¬h.nbytes + (xs ++ ys).length < 2 ^ 64 by
          rw [List.length_append]; omega)]
  · rw [if_neg hov1,
      if_neg (show ¬h.nbytes + (xs ++ ys).length < 2 ^ 64 by
        rw [List.length_append]; omega)]
    rfl

/-- A sequence of `insert` calls equals one bulk `insert` of the
concatenation, on any well-formed starting state. -/
theorem insertAll_eq_insert_flatten (h : JsHash) (cs : List (List Nat)) (wf : Wf h) :
    insertAll h cs = h.insert cs.flatten := by
  induction cs generalizing h with
  | nil =>
      show some h = h.insert []
      unfold JsHash.insert
      simp
  | cons c cs ih =>
      show (h.insert c).bind (fun h' => insertAll h' cs) = h.insert (c ++ cs.flatten)
      rw [insert_append h c cs.flatten wf]
      cases hc : h.insert c with
      | none => rfl
      | some h2 =>
          simp only [Option.some_bind]
          exact ih h2 (insert_wf h c wf h2 hc)

set_option maxHeartbeats 2000000 in
/-- One column-then-diagonal iteration of the source loop equals the
spec's double round on the word list. -/
theorem doubleRound_eq (m : ChaChaMat) :
    doubleRoundSpec (matToList m) = matToList (diagRound (colRound m)) := by
  simp only [doubleRoundSpec, qrAt, quarterRoundSpec, matToList, colRound, diagRound, QR,
    List.foldl_cons, List.foldl_nil, List.getD, List.set, List.get?, List.getElem?_cons_zero,
    List.getElem?_cons_succ]
  rfl

/-- The source round loop equals the iterated spec double round. -/
theorem chachaRounds_eq_iterate (n : Nat) (m : ChaChaMat) :
    matToList (chachaRounds n m) = doubleRoundSpec^[n] (matToList m) := by
  induction n generalizing m with
  | zero => rfl
  | succ n ih =>
      rw [show chachaRounds (n + 1) m = chachaRounds n (diagRound (colRound m)) from rfl,
        Function.iterate_succ_apply, doubleRound_eq]
      exact ih (diagRound (colRound m))

/-- Word-wise addition agrees with the spec's zipWith form. -/
theorem matToBytes_addMat (x y : ChaChaMat) :
    matToBytes (addMat x y)
      = ((List.zipWith (fun a b => (a + b) % 2 ^ 32) (matToList x) (matToList y)).map
          word32ToLEBytes).flatten := rfl

/-- The byte view of a word array has eight bytes per word. -/
theorem words64ToBytes_length (blk : List Nat) :
    (words64ToBytes blk).length = 8 * blk.length := by
  induction blk with
  | nil => rfl
  | cons b bs ih =>
      simp only [words64ToBytes, List.map_cons, List.flatten_cons, List.length_append,
        List.length_cons] at ih ⊢
      simp only [word64ToLEBytes, List.length_cons, List.length_nil]
      omega

/-- A 16-word state serializes to 64 bytes. -/
theorem matToBytes_length (m : ChaChaMat) : (matToBytes m).length = 64 := by
  simp [matToBytes, matToList, word32ToLEBytes]

/-- `xor_stream` over exactly 64 bytes, starting from an exhausted
cursor: one refill, one full-block XOR, cursor fully consumed. -/
theorem xor_stream_64 (c : ChaCha20) (bytes : List Nat) (hpos : 64 ≤ c.pos)
    (hlen : bytes.length = 64) :
    xor_stream c bytes
      = (List.zipWith (fun i k => i ^^^ k) bytes (refill_keystream c).ks,
         { refill_keystream c with pos := 64 }) := by
  have h1 : 0 < bytes.length := by omega
  have hks : (refill_keystream c).ks.length = 64 := by
    rw [show (refill_keystream c).ks
        = matToBytes (addMat (chachaRounds 10 c.mat) c.mat) from rfl,
      matToBytes_length]
  rw [xor_stream, dif_pos h1]
  simp only [if_pos hpos, hlen]
  rw [show (refill_keystream c).pos = 0 from rfl]
  norm_num
  rw [List.take_of_length_le (le_of_eq hlen), List.take_of_length_le (le_of_eq hks),
    List.drop_of_length_le (le_of_eq hlen)]
  rw [xor_stream]
  simp

/-- Running the byte-level loop for `tk` bytes that stay inside the
current keystream block: XOR with the next `tk` keystream bytes, then
continue with the cursor advanced by `tk`. -/
theorem xorBytes_run (tk : Nat) : ∀ (c : ChaCha20) (input : List Nat),
    c.ks.length = 64 → tk ≤ input.length → c.pos + tk ≤ 64 →
    xorBytes c input
      = (List.zipWith (fun i k => i ^^^ k) (input.take tk) ((c.ks.drop c.pos).take tk)
          ++ (xorBytes { c with pos := c.pos + tk } (input.drop tk)).1,
         (xorBytes { c with pos := c.pos + tk } (input.drop tk)).2) := by
  induction tk with
  | zero =>
      intro c input hks hlen hpos
      simp
  | succ tk ih =>
      intro c input hks hlen hpos
      cases input with
      | nil => simp at hlen
      | cons b bs =>
          have hposlt : ¬64 ≤ c.pos := by omega
          have hlt : c.pos < c.ks.length := by omega
          have hih := ih { c with pos := c.pos + 1 } bs hks
            (by simp only [List.length_cons] at hlen; omega)
            (show c.pos + 1 + tk ≤ 64 by omega)
          simp only [xorBytes, if_neg hposlt]
          rw [hih]
          rw [List.take_succ_cons, List.drop_succ_cons,
            List.drop_eq_getElem_cons hlt, List.take_succ_cons, List.zipWith_cons_cons,
            List.getD_eq_getElem c.ks 0 hlt]
          rw [show c.pos + 1 + tk = c.pos + (tk + 1) from by omega]
          simp

/-- When the cursor is exhausted and at least one byte is processed,
the byte-level loop behaves as if the refill had already happened. -/
theorem xorBytes_refill_first (c : ChaCha20) (b : Nat) (bs : List Nat)
    (hpos : 64 ≤ c.pos) :
    xorBytes c (b :: bs) = xorBytes (refill_keystream c) (b :: bs) := by
  have hnr : ¬64 ≤ (refill_keystream c).pos := by
    rw [show (refill_keystream c).pos = 0 from rfl]; omega
  conv_lhs => rw [xorBytes]
  conv_rhs => rw [xorBytes]
  simp only [if_pos hpos, if_neg hnr]

/-- The source's chunked `xor_stream` loop equals the byte-level loop
(bounded form for the induction). -/
theorem xor_stream_eq_xorBytes_bounded : ∀ (n : Nat) (c : ChaCha20) (input : List Nat),
    input.length ≤ n → c.ks.length = 64 →
    xor_stream c input = xorBytes c input := by
  intro n
  induction n with
  | zero =>
      intro c input hn hks
      obtain rfl : input = [] := List.eq_nil_of_length_eq_zero (by omega)
      rw [xor_stream]
      simp [xorBytes]
  | succ n ih =>
      intro c input hn hks
      by_cases h0 : input.length = 0
      · obtain rfl : input = [] := List.eq_nil_of_length_eq_zero h0
        rw [xor_stream]
        simp [xorBytes]
      · cases input with
        | nil => simp at h0
        | cons b bs =>
            rw [xor_stream, dif_pos (by omega)]
            by_cases hp : 64 ≤ c.pos
            · have hks1 : (refill_keystream c).ks.length = 64 := by
                rw [show (refill_keystream c).ks
                    = matToBytes (addMat (chachaRounds 10 c.mat) c.mat) from rfl,
                  matToBytes_length]
              simp only [if_pos hp]
              rw [xorBytes_refill_first c b bs hp]
              rw [xorBytes_run (min (b :: bs).length (64 - (refill_keystream c).pos))
                (refill_keystream c) (b :: bs) hks1 (Nat.min_le_left _ _)
                (by rw [show (refill_keystream c).pos = 0 from rfl]; omega)]
              rw [ih { refill_keystream c with
                    pos := (refill_keystream c).pos
                      + min (b :: bs).length (64 - (refill_keystream c).pos) }
                ((b :: bs).drop (min (b :: bs).length (64 - (refill_keystream c).pos)))
                (by
                  rw [List.length_drop]
                  have h64 : (refill_keystream c).pos = 0 := rfl
                  rw [h64]
                  simp only [List.length_cons] at hn ⊢
                  omega)
                hks1]
            · simp only [if_neg hp]
              rw [xorBytes_run (min (b :: bs).length (64 - c.pos)) c (b :: bs) hks
                (Nat.min_le_left _ _) (by omega)]
              rw [ih { c with pos := c.pos + min (b :: bs).length (64 - c.pos) }
                ((b :: bs).drop (min (b :: bs).length (64 - c.pos)))
                (by
                  rw [List.length_drop]
                  simp only [List.length_cons] at hn ⊢
                  omega)
                hks]

/-- The source's chunked `xor_stream` loop equals the byte-level loop
on any state with the (always maintained) 64-byte keystream block. -/
theorem xor_stream_eq_xorBytes (c : ChaCha20) (input : List Nat)
    (hks : c.ks.length = 64) :
    xor_stream c input = xorBytes c input :=
  xor_stream_eq_xorBytes_bounded input.length c input le_rfl hks

/-- Finalization's tail padding never touches the byte counter. -/
theorem padFinal_nbytes (h : JsHash) : (padFinal h).nbytes = h.nbytes := by
  unfold padFinal
  split <;> rfl

/-- A zero-length `insert` is a no-op returning the state unchanged. -/
theorem insert_nil (h : JsHash) : h.insert [] = some h := by
  unfold JsHash.insert
  simp

/-- A freshly constructed hash state is well-formed. -/
theorem jsHashInit_wf (seed : Nat) : Wf (jsHashInit seed) := by
  unfold Wf
  constructor
  · rw [show (jsHashInit seed).buffer = [] from rfl]
    simp
  · rw [show (jsHashInit seed).nbytes = 0 from rfl]
    norm_num

/-- Claim C1, counterexample: on the state with zero lanes, empty
buffer and byte count `2^32` (the count after absorbing 2^32 bytes),
the standard finalization of the source differs from the spec's
low-32-bits length injection, because the code computes
`a = mix(a, nbytes)` with the full 64-bit counter. -/
theorem C1_counterexample :
    hash256 ⟨0, 0, 0, 0, 2 ^ 32, []⟩ ≠ hash256_spec_low32 ⟨0, 0, 0, 0, 2 ^ 32, []⟩ := by
  decide

/-- Claim C1 (amended): the standard finalization injects the length
as `a = mix(a, byte_count)` with the full 64-bit counter; this agrees
with the claimed `a = mix(a, low32(byte_count))` exactly when fewer
than `2^32` bytes were absorbed, and then hash128/hash64 are the
claimed XOR folds of that digest. -/
theorem C1_length_injection_low32 (h : JsHash) (hlt : h.nbytes < 2 ^ 32) :
    hash256 h = hash256_spec_low32 h
    ∧ hash128 h = [(hash256_spec_low32 h).getD 0 0 ^^^ (hash256_spec_low32 h).getD 1 0,
        (hash256_spec_low32 h).getD 2 0 ^^^ (hash256_spec_low32 h).getD 3 0]
    ∧ JsHash.hash64 h = (hash256_spec_low32 h).getD 0 0 ^^^ (hash256_spec_low32 h).getD 1 0
        ^^^ (hash256_spec_low32 h).getD 2 0 ^^^ (hash256_spec_low32 h).getD 3 0 := by
  have hmain : hash256 h = hash256_spec_low32 h := by
    simp only [hash256, hash256_spec_low32]
    rw [Nat.mod_eq_of_lt (show (padFinal h).nbytes < 2 ^ 32 by
      rw [padFinal_nbytes]; exact hlt)]
  refine ⟨hmain, ?_, ?_⟩
  · simp only [hash128]
    rw [hmain]
  · simp only [JsHash.hash64]
    rw [hmain]

/-- Claim C1, witness: the amended statement evaluated on a concrete
small state. -/
theorem C1_length_injection_witness :
    ((⟨1, 2, 3, 4, 5, [6]⟩ : JsHash).nbytes < 2 ^ 32)
    ∧ (hash256 ⟨1, 2, 3, 4, 5, [6]⟩ = hash256_spec_low32 ⟨1, 2, 3, 4, 5, [6]⟩
      ∧ hash128 ⟨1, 2, 3, 4, 5, [6]⟩
          = [(hash256_spec_low32 ⟨1, 2, 3, 4, 5, [6]⟩).getD 0 0
                ^^^ (hash256_spec_low32 ⟨1, 2, 3, 4, 5, [6]⟩).getD 1 0,
             (hash256_spec_low32 ⟨1, 2, 3, 4, 5, [6]⟩).getD 2 0
                ^^^ (hash256_spec_low32 ⟨1, 2, 3, 4, 5, [6]⟩).getD 3 0]
      ∧ JsHash.hash64 ⟨1, 2, 3, 4, 5, [6]⟩
          = (hash256_spec_low32 ⟨1, 2, 3, 4, 5, [6]⟩).getD 0 0
              ^^^ (hash256_spec_low32 ⟨1, 2, 3, 4, 5, [6]⟩).getD 1 0
              ^^^ (hash256_spec_low32 ⟨1, 2, 3, 4, 5, [6]⟩).getD 2 0
              ^^^ (hash256_spec_low32 ⟨1, 2, 3, 4, 5, [6]⟩).getD 3 0) :=
  ⟨by decide, C1_length_injection_low32 ⟨1, 2, 3, 4, 5, [6]⟩ (by decide)⟩

/-- Claim C2, counterexample: on the same `2^32`-byte state, the
secure finalization of the source differs from the spec's block with
word 4 the zero-extended low 32 bits, because the code stores the full
64-bit counter in word 4. -/
theorem C2_counterexample :
    hash_secure 8 ⟨0, 0, 0, 0, 2 ^ 32, []⟩ ⟨1, 2, 3, 4, 5, 6, 7, 8⟩ ⟨9, 10, 11⟩
      ≠ hash_secure_spec_low32 8 ⟨0, 0, 0, 0, 2 ^ 32, []⟩ ⟨1, 2, 3, 4, 5, 6, 7, 8⟩
          ⟨9, 10, 11⟩ := by
  have hE1 : ∀ input, xor_stream (chachaNew ⟨1, 2, 3, 4, 5, 6, 7, 8⟩ ⟨9, 10, 11⟩ 1) input
      = xorBytes (chachaNew ⟨1, 2, 3, 4, 5, 6, 7, 8⟩ ⟨9, 10, 11⟩ 1) input :=
    fun input => xor_stream_eq_xorBytes _ input (by decide)
  simp only [hash_secure, hash_secure_spec_low32, encrypt_block, crypt, hE1]
  decide

/-- Claim C2 (amended): the secure finalization builds its block with
word 4 the full 64-bit `byte_count` (words 0-3 the raw lanes, word 5
the high 32 bits, words 6-7 the salts) and returns the first N words
of the ChaCha20-encrypted block; word 4 equals the claimed
zero-extended low 32 bits exactly when fewer than `2^32` bytes were
absorbed. -/
theorem C2_secure_block_low32 (N : Nat) (h : JsHash) (key : ChaChaKey)
    (nonce : ChaChaNonce) (hlt : h.nbytes < 2 ^ 32) :
    hash_secure N h key nonce = hash_secure_spec_low32 N h key nonce := by
  simp only [hash_secure, hash_secure_spec_low32]
  rw [Nat.mod_eq_of_lt (show (padFinal h).nbytes < 2 ^ 32 by
    rw [padFinal_nbytes]; exact hlt)]

/-- Claim C2, witness: the amended statement evaluated on a concrete
small state. -/
theorem C2_secure_block_witness :
    ((⟨1, 2, 3, 4, 5, [6]⟩ : JsHash).nbytes < 2 ^ 32)
    ∧ hash_secure 8 ⟨1, 2, 3, 4, 5, [6]⟩ ⟨1, 2, 3, 4, 5, 6, 7, 8⟩ ⟨9, 10, 11⟩
        = hash_secure_spec_low32 8 ⟨1, 2, 3, 4, 5, [6]⟩ ⟨1, 2, 3, 4, 5, 6, 7, 8⟩
            ⟨9, 10, 11⟩ :=
  ⟨by decide, C2_secure_block_low32 8 ⟨1, 2, 3, 4, 5, [6]⟩ ⟨1, 2, 3, 4, 5, 6, 7, 8⟩
    ⟨9, 10, 11⟩ (by decide)⟩

/-- Claim C3, counterexample: a cipher state with a partially consumed
keystream cursor (position 5, reached by encrypting 5 bytes on a fresh
instance).  `encrypt_block` there does not XOR with one freshly
generated block: it consumes the 59 残 remaining bytes of the current
block before generating. -/
theorem C3_counterexample :
    (encrypt_block
        ((xor_stream (chachaNew ⟨1, 2, 3, 4, 5, 6, 7, 8⟩ ⟨9, 10, 11⟩ 1)
          (List.replicate 5 0)).2)
        (List.replicate 8 0)).1
      ≠ bytesToWords64 (List.zipWith (fun i k => i ^^^ k)
          (words64ToBytes (List.replicate 8 0))
          (fresh_block_bytes
            ((xor_stream (chachaNew ⟨1, 2, 3, 4, 5, 6, 7, 8⟩ ⟨9, 10, 11⟩ 1)
              (List.replicate 5 0)).2))) := by
  have hE1 : ∀ input, xor_stream (chachaNew ⟨1, 2, 3, 4, 5, 6, 7, 8⟩ ⟨9, 10, 11⟩ 1) input
      = xorBytes (chachaNew ⟨1, 2, 3, 4, 5, 6, 7, 8⟩ ⟨9, 10, 11⟩ 1) input :=
    fun input => xor_stream_eq_xorBytes _ input (by decide)
  simp only [encrypt_block, crypt, hE1]
  have hE2 : ∀ input,
      xor_stream ((xorBytes (chachaNew ⟨1, 2, 3, 4, 5, 6, 7, 8⟩ ⟨9, 10, 11⟩ 1)
          (List.replicate 5 0)).2) input
        = xorBytes ((xorBytes (chachaNew ⟨1, 2, 3, 4, 5, 6, 7, 8⟩ ⟨9, 10, 11⟩ 1)
          (List.replicate 5 0)).2) input :=
    fun input => xor_stream_eq_xorBytes _ input (by decide)
  simp only [hE2]
  decide

/-- Claim C3 (amended): when the keystream cursor is exhausted (as in
a freshly constructed instance), `encrypt_block` returns the 8-word
input XORed with exactly one freshly generated 64-byte keystream
block, and leaves the cipher with that block fully consumed and the
counter advanced by one. -/
theorem C3_encrypt_block_fresh (c : ChaCha20) (blk : List Nat) (hpos : 64 ≤ c.pos)
    (hlen : blk.length = 8) :
    encrypt_block c blk
      = (bytesToWords64 (List.zipWith (fun i k => i ^^^ k) (words64ToBytes blk)
          (fresh_block_bytes c)),
        { refill_keystream c with pos := 64 }) := by
  unfold encrypt_block crypt
  rw [xor_stream_64 c (words64ToBytes blk) hpos (by rw [words64ToBytes_length, hlen])]
  rfl

/-- Claim C3, witness: the amended statement evaluated on a fresh
instance and a concrete block. -/
theorem C3_encrypt_block_witness :
    64 ≤ (chachaNew ⟨1, 2, 3, 4, 5, 6, 7, 8⟩ ⟨9, 10, 11⟩ 1).pos
    ∧ ([1, 2, 3, 4, 5, 6, 7, 8] : List Nat).length = 8
    ∧ encrypt_block (chachaNew ⟨1, 2, 3, 4, 5, 6, 7, 8⟩ ⟨9, 10, 11⟩ 1)
        [1, 2, 3, 4, 5, 6, 7, 8]
      = (bytesToWords64 (List.zipWith (fun i k => i ^^^ k)
          (words64ToBytes [1, 2, 3, 4, 5, 6, 7, 8])
          (fresh_block_bytes (chachaNew ⟨1, 2, 3, 4, 5, 6, 7, 8⟩ ⟨9, 10, 11⟩ 1))),
        { refill_keystream (chachaNew ⟨1, 2, 3, 4, 5, 6, 7, 8⟩ ⟨9, 10, 11⟩ 1) with
            pos := 64 }) :=
  ⟨by decide, by decide,
    C3_encrypt_block_fresh (chachaNew ⟨1, 2, 3, 4, 5, 6, 7, 8⟩ ⟨9, 10, 11⟩ 1)
      [1, 2, 3, 4, 5, 6, 7, 8] (by decide) (by decide)⟩

/-- Claim C4: the portable four-partial-product multiply returns
exactly the low and high 64-bit halves of the true 128-bit product,
and hence the portable `mix` agrees bit-for-bit with the wide-multiply
`mix`. -/
theorem C4_mul64_portable_exact (a b : Nat) (ha : a < 2 ^ 64) (hb : b < 2 ^ 64) :
    mul64_portable a b = ⟨a * b % 2 ^ 64, a * b / 2 ^ 64⟩
    ∧ mix_portable a b = mix a b := by
  refine ⟨mul64_portable_correct a b ha hb, ?_⟩
  simp only [mix_portable, mix]
  rw [mul64_portable_correct a (b ^^^ MIX) ha
    (Nat.xor_lt_two_pow hb (by decide))]

/-- Claim C4, witness: the statement evaluated at concrete inputs. -/
theorem C4_mul64_portable_witness :
    ((3 : Nat) < 2 ^ 64 ∧ (5 : Nat) < 2 ^ 64)
    ∧ mul64_portable 3 5 = ⟨3 * 5 % 2 ^ 64, 3 * 5 / 2 ^ 64⟩
    ∧ mix_portable 3 5 = mix 3 5 :=
  ⟨⟨by norm_num, by norm_num⟩,
    (C4_mul64_portable_exact 3 5 (by norm_num) (by norm_num)).1,
    (C4_mul64_portable_exact 3 5 (by norm_num) (by norm_num)).2⟩

/-- Claim C5: inserting any partition of a byte sequence into
consecutive chunks (empty chunks allowed) produces the same state —
and hence the same digest under every finalization — as one bulk
insert, and a zero-length insert is a no-op. -/
theorem C5_chunk_invariance (seed : Nat) (chunks : List (List Nat)) (h : JsHash)
    (key : ChaChaKey) (nonce : ChaChaNonce) (N : Nat) :
    insertAll (jsHashInit seed) chunks = (jsHashInit seed).insert chunks.flatten
    ∧ (insertAll (jsHashInit seed) chunks).map hash256
        = ((jsHashInit seed).insert chunks.flatten).map hash256
    ∧ (insertAll (jsHashInit seed) chunks).map hash128
        = ((jsHashInit seed).insert chunks.flatten).map hash128
    ∧ (insertAll (jsHashInit seed) chunks).map JsHash.hash64
        = ((jsHashInit seed).insert chunks.flatten).map JsHash.hash64
    ∧ (insertAll (jsHashInit seed) chunks).map (fun x => hash_secure N x key nonce)
        = ((jsHashInit seed).insert chunks.flatten).map (fun x => hash_secure N x key nonce)
    ∧ h.insert [] = some h := by
  have hmain := insertAll_eq_insert_flatten (jsHashInit seed) chunks (jsHashInit_wf seed)
  exact ⟨hmain, by rw [hmain], by rw [hmain], by rw [hmain], by rw [hmain], insert_nil h⟩

/-- Claim C6: one keystream-block generation applies 10 iterations of
the four column and four diagonal quarter-rounds on the stated index
groups to a scratch copy, adds the pre-round state word-wise mod 2^32,
increments the 64-bit counter by exactly one, writes it into state
words 12 (low) and 13 (high), and resets the read cursor to 0. -/
theorem C6_generate_block (c : ChaCha20) :
    refill_keystream c = generate_block_spec c := by
  simp only [refill_keystream, generate_block_spec, ChaCha20.mk.injEq, and_true,
    true_and]
  rw [matToBytes_addMat, chachaRounds_eq_iterate]

/-- Claim C7: every finalization method leaves the caller-visible
state unchanged (the body works on a method-local copy), so repeated
finalizations return equal digests and the instance remains insertable
exactly as before. -/
theorem C7_finalization_nondestructive (h : JsHash) (data : List Nat)
    (key : ChaChaKey) (nonce : ChaChaNonce) (N : Nat) :
    (hash256_call h).2 = h ∧ (hash128_call h).2 = h ∧ (hash64_call h).2 = h
    ∧ (hash_secure_call N h key nonce).2 = h
    ∧ (hash256_call ((hash256_call h).2)).1 = (hash256_call h).1
    ∧ (hash128_call ((hash128_call h).2)).1 = (hash128_call h).1
    ∧ (hash64_call ((hash64_call h).2)).1 = (hash64_call h).1
    ∧ (hash_secure_call N ((hash_secure_call N h key nonce).2) key nonce).1
        = (hash_secure_call N h key nonce).1
    ∧ ((hash256_call h).2).insert data = h.insert data
    ∧ ((hash_secure_call N h key nonce).2).insert data = h.insert data :=
  ⟨rfl, rfl, rfl, rfl, rfl, rfl, rfl, rfl, rfl, rfl⟩

/-- Claim C8: the constructor stores only nonce words 0 and 1, so two
instances whose nonces differ only in the third word have identical
state, keystream, and outputs, and `hash_secure` is likewise
independent of the third nonce word. -/
theorem C8_nonce_third_word_ignored (key : ChaChaKey) (n0 n1 w w' ctr N : Nat)
    (data blk : List Nat) (h : JsHash) :
    chachaNew key ⟨n0, n1, w⟩ ctr = chachaNew key ⟨n0, n1, w'⟩ ctr
    ∧ crypt (chachaNew key ⟨n0, n1, w⟩ ctr) data
        = crypt (chachaNew key ⟨n0, n1, w'⟩ ctr) data
    ∧ encrypt_block (chachaNew key ⟨n0, n1, w⟩ ctr) blk
        = encrypt_block (chachaNew key ⟨n0, n1, w'⟩ ctr) blk
    ∧ (refill_keystream (chachaNew key ⟨n0, n1, w⟩ ctr)).ks
        = (refill_keystream (chachaNew key ⟨n0, n1, w'⟩ ctr)).ks
    ∧ hash_secure N h key ⟨n0, n1, w⟩ = hash_secure N h key ⟨n0, n1, w'⟩ :=
  ⟨rfl, rfl, rfl, rfl, rfl⟩

/-- Claim C9: on a well-formed state, `insert` aborts (the fatal
counter-overflow exit) exactly when the byte count would leave the
64-bit range; every call that returns normally increases `byte_count`
by exactly the input length — in particular it never decreases and
never silently wraps — and for all other inputs (including the empty
input, the model of `insert(nullptr, 0)`) the call succeeds. -/
theorem C9_insert_counter (h : JsHash) (data : List Nat) (wf : Wf h) :
    (h.insert data = none ↔ 2 ^ 64 ≤ h.nbytes + data.length)
    ∧ ∀ h', h.insert data = some h' →
        h'.nbytes = h.nbytes + data.length ∧ h.nbytes ≤ h'.nbytes := by
  rw [insert_char h data wf]
  by_cases hov : h.nbytes + data.length < 2 ^ 64
  · rw [if_pos hov]
    constructor
    · constructor
      · intro hs
        exact absurd hs (by simp)
      · intro hle
        omega
    · intro h' hs
      obtain rfl : insertSpec h data = h' := by simpa using hs
      refine ⟨rfl, ?_⟩
      rw [show (insertSpec h data).nbytes = h.nbytes + data.length from rfl]
      omega
  · rw [if_neg hov]
    constructor
    · constructor
      · intro _
        omega
      · intro _
        rfl
    · intro h' hs
      exact absurd hs (by simp)

/-- Claim C9, witness: the statement evaluated on a fresh seed-42
state and a three-byte input. -/
theorem C9_insert_counter_witness :
    Wf (jsHashInit 42)
    ∧ (((jsHashInit 42).insert [1, 2, 3] = none
          ↔ 2 ^ 64 ≤ (jsHashInit 42).nbytes + ([1, 2, 3] : List Nat).length)
       ∧ ∀ h', (jsHashInit 42).insert [1, 2, 3] = some h' →
           h'.nbytes = (jsHashInit 42).nbytes + ([1, 2, 3] : List Nat).length
           ∧ (jsHashInit 42).nbytes ≤ h'.nbytes) :=
  ⟨by decide, C9_insert_counter (jsHashInit 42) [1, 2, 3] (by decide)⟩

/-- Claim C10: the one-shot helpers are definitionally the sequence
construct, insert once, finalize. -/
theorem C10_oneshot_equivalence (data : List Nat) (seed N : Nat) (key : ChaChaKey)
    (nonce : ChaChaNonce) :
    Hash64 data seed = ((jsHashInit seed).insert data).map JsHash.hash64
    ∧ SecureHash N data key seed nonce
        = ((jsHashInit seed).insert data).map fun h' => hash_secure N h' key nonce :=
  ⟨rfl, rfl⟩
